import Mathlib

/-! Verification of the column-resolution, key-normalization and
join/consolidation logic of the Chassis Allocation tool (src/app.py).
Strings are modelled as `List Char`, pandas cells as `Cell`, tables as
lists of rows; each definition mirrors the corresponding Python code. -/

/-- Whitespace characters (the ASCII range of Python's whitespace class, as
matched by `str.strip` and by the regex class in `normalize_style_series`). -/
def pyIsSpace (c : Char) : Bool :=
  decide (c.toNat = 32 ∨ c.toNat = 9 ∨ c.toNat = 10 ∨ c.toNat = 11 ∨
    c.toNat = 12 ∨ c.toNat = 13)

/-- ASCII uppercasing of one character, modelling Python `str.upper`. -/
def pyToUpper (c : Char) : Char :=
  if 97 ≤ c.toNat ∧ c.toNat ≤ 122 then Char.ofNat (c.toNat - 32) else c

/-- ASCII lowercasing of one character, modelling the Python `str.lower`
used by `guess_column`. -/
def pyToLower (c : Char) : Char :=
  if 65 ≤ c.toNat ∧ c.toNat ≤ 90 then Char.ofNat (c.toNat + 32) else c

/-- Python `x.strip()`: drop leading and trailing whitespace. -/
def pyStrip (l : List Char) : List Char :=
  ((l.dropWhile pyIsSpace).reverse.dropWhile pyIsSpace).reverse

/-- Python `x.str.replace(r"\s+", "", regex=True)`: every run of whitespace
is replaced by the empty string, i.e. all whitespace characters vanish. -/
def removeWs (l : List Char) : List Char :=
  l.filter (fun c => !pyIsSpace c)

/-- Python `x.str.upper()` lifted to a whole string. -/
def upperAll (l : List Char) : List Char := l.map pyToUpper

/-- Python `re.sub(r"^0+", "", z)`: strip leading zero characters (the regex
is anchored at the start of the string). -/
def dropZeros (l : List Char) : List Char :=
  l.dropWhile (fun c => decide (c.toNat = 48))

/-- One scalar cell of a pandas object column: missing (NaN), a string, or a
number. -/
inductive Cell where
  | null : Cell
  | str : List Char → Cell
  | num : Int → Cell
deriving DecidableEq

/-- pandas `isna` on one cell of an object column. -/
def Cell.isNull : Cell → Bool
  | Cell.null => true
  | _ => false

/-- pandas `Series.astype(str)` on one cell: the missing value NaN
stringifies to "nan", numbers to their decimal representation, strings are
unchanged. -/
def pyStrCell : Cell → List Char
  | Cell.null => "nan".data
  | Cell.str s => s
  | Cell.num n => (toString n).data

/-- The four independent boolean toggles of `normalize_style_series`. -/
structure NormConfig where
  do_strip : Bool
  to_upper : Bool
  remove_spaces : Bool
  remove_leading_zeros : Bool
deriving DecidableEq

/-- The string pipeline of `normalize_style_series` (src/app.py lines 46-60)
after `astype(str)`: strip, then removal of internal whitespace, then
uppercase, then leading-zero removal, each stage gated by its flag, in the
order the Python code applies them. -/
def normChars (cfg : NormConfig) (s : List Char) : List Char :=
  let x1 := if cfg.do_strip then pyStrip s else s
  let x2 := if cfg.remove_spaces then removeWs x1 else x1
  let x3 := if cfg.to_upper then upperAll x2 else x2
  if cfg.remove_leading_zeros then dropZeros x3 else x3

/-- `normalize_style_series` applied to one cell: `astype(str)` followed by
the gated pipeline. -/
def normalize_style_series (cfg : NormConfig) (c : Cell) : List Char :=
  normChars cfg (pyStrCell c)

/-- C5: for every scalar value and every combination of the four toggles the
enabled stages run in the fixed order stringify, trim, full removal of
internal whitespace, uppercase, strip leading zeros; "00123" normalizes to
"123" when the leading-zero toggle is enabled and stays "00123" when it is
disabled; internal whitespace runs are removed entirely, not collapsed to a
single space. -/
theorem c5_normalization_stage_order :
    (∀ (cfg : NormConfig) (c : Cell),
      normalize_style_series cfg c =
        (fun s => if cfg.remove_leading_zeros then dropZeros s else s)
          ((fun s => if cfg.to_upper then upperAll s else s)
            ((fun s => if cfg.remove_spaces then removeWs s else s)
              ((fun s => if cfg.do_strip then pyStrip s else s)
                (pyStrCell c))))) ∧
    normalize_style_series ⟨true, true, true, true⟩ (Cell.str "00123".data) =
      "123".data ∧
    normalize_style_series ⟨true, true, true, false⟩ (Cell.str "00123".data) =
      "00123".data ∧
    removeWs "a  b".data = "ab".data ∧
    removeWs "a  b".data ≠ "a b".data := by
  refine ⟨fun cfg c => rfl, by decide, by decide, by decide, by decide⟩

/-- Packing a valid code point and reading it back is the identity. -/
theorem toNat_charOfNat {n : Nat} (h : n < 55296) : (Char.ofNat n).toNat = n := by
  rw [Char.ofNat, dif_pos (Or.inl h)]
  rfl

/-- Code point of the uppercased character. -/
theorem toNat_pyToUpper (c : Char) :
    (pyToUpper c).toNat =
      if 97 ≤ c.toNat ∧ c.toNat ≤ 122 then c.toNat - 32 else c.toNat := by
  unfold pyToUpper
  by_cases h : 97 ≤ c.toNat ∧ c.toNat ≤ 122
  · rw [if_pos h, if_pos h]
    exact toNat_charOfNat (by omega)
  · rw [if_neg h, if_neg h]

/-- Uppercasing neither creates nor destroys whitespace. -/
theorem pyIsSpace_pyToUpper (c : Char) : pyIsSpace (pyToUpper c) = pyIsSpace c := by
  simp only [pyIsSpace, toNat_pyToUpper, decide_eq_decide]
  by_cases h : 97 ≤ c.toNat ∧ c.toNat ≤ 122
  · rw [if_pos h]; omega
  · rw [if_neg h]

/-- Uppercasing one character is idempotent. -/
theorem pyToUpper_pyToUpper (c : Char) : pyToUpper (pyToUpper c) = pyToUpper c := by
  have hn : ¬(97 ≤ (pyToUpper c).toNat ∧ (pyToUpper c).toNat ≤ 122) := by
    rw [toNat_pyToUpper]
    by_cases h : 97 ≤ c.toNat ∧ c.toNat ≤ 122
    · rw [if_pos h]; omega
    · rw [if_neg h]; exact h
  conv_lhs => rw [pyToUpper]
  rw [if_neg hn]

/-- Dropping from a list none of whose elements satisfies the predicate is
the identity. -/
theorem dropWhile_self_of_all {α : Type} {p : α → Bool} {l : List α}
    (h : ∀ c ∈ l, p c = false) : l.dropWhile p = l := by
  cases l with
  | nil => rfl
  | cons a t =>
    have ha := h a (List.mem_cons_self a t)
    rw [List.dropWhile_cons, if_neg (by simp [ha])]

/-- `dropWhile` is idempotent. -/
theorem dropWhile_dropWhile {α : Type} (p : α → Bool) (l : List α) :
    (l.dropWhile p).dropWhile p = l.dropWhile p := by
  induction l with
  | nil => rfl
  | cons a t ih =>
    rw [List.dropWhile_cons]
    by_cases h : p a = true
    · rw [if_pos h]; exact ih
    · rw [if_neg h, List.dropWhile_cons, if_neg h]

/-- A prefix of a `dropWhile` fixed point is itself a fixed point. -/
theorem dropWhile_prefix_self {α : Type} {p : α → Bool} {u v : List α}
    (hm : (u ++ v).dropWhile p = u ++ v) : u.dropWhile p = u := by
  cases u with
  | nil => rfl
  | cons a t =>
    have hpa : ¬p a = true := by
      intro hpa
      rw [List.cons_append, List.dropWhile_cons, if_pos hpa] at hm
      have h2 := (List.dropWhile_sublist (l := t ++ v) p).length_le
      rw [hm] at h2
      simp at h2
    rw [List.dropWhile_cons, if_neg hpa]

/-- Stripping a string without whitespace is the identity. -/
theorem pyStrip_of_all {l : List Char} (h : ∀ c ∈ l, pyIsSpace c = false) :
    pyStrip l = l := by
  unfold pyStrip
  rw [dropWhile_self_of_all h,
    dropWhile_self_of_all (fun c hc => h c (List.mem_reverse.mp hc)),
    List.reverse_reverse]

/-- Python strip is idempotent. -/
theorem pyStrip_pyStrip (l : List Char) : pyStrip (pyStrip l) = pyStrip l := by
  have hm : (l.dropWhile pyIsSpace).dropWhile pyIsSpace = l.dropWhile pyIsSpace :=
    dropWhile_dropWhile _ _
  have hdec : ((l.dropWhile pyIsSpace).reverse.dropWhile pyIsSpace).reverse ++
      ((l.dropWhile pyIsSpace).reverse.takeWhile pyIsSpace).reverse =
      l.dropWhile pyIsSpace := by
    have h3 := congrArg List.reverse
      (List.takeWhile_append_dropWhile (p := pyIsSpace) ((l.dropWhile pyIsSpace).reverse))
    rw [List.reverse_append, List.reverse_reverse] at h3
    exact h3
  have h1 : (pyStrip l).dropWhile pyIsSpace = pyStrip l := by
    apply dropWhile_prefix_self
      (v := ((l.dropWhile pyIsSpace).reverse.takeWhile pyIsSpace).reverse)
    show (((l.dropWhile pyIsSpace).reverse.dropWhile pyIsSpace).reverse ++
      ((l.dropWhile pyIsSpace).reverse.takeWhile pyIsSpace).reverse).dropWhile pyIsSpace =
      ((l.dropWhile pyIsSpace).reverse.dropWhile pyIsSpace).reverse ++
      ((l.dropWhile pyIsSpace).reverse.takeWhile pyIsSpace).reverse
    rw [hdec]
    exact hm
  show ((((pyStrip l).dropWhile pyIsSpace).reverse).dropWhile pyIsSpace).reverse = pyStrip l
  rw [h1]
  have h2 : (pyStrip l).reverse = (l.dropWhile pyIsSpace).reverse.dropWhile pyIsSpace := by
    unfold pyStrip; rw [List.reverse_reverse]
  rw [h2, dropWhile_dropWhile, ← h2, List.reverse_reverse]

/-- The whitespace-removal stage leaves no whitespace behind. -/
theorem noWs_removeWs (l : List Char) : ∀ c ∈ removeWs l, pyIsSpace c = false := by
  intro c hc
  rcases List.mem_filter.mp hc with ⟨_, h2⟩
  simpa using h2

/-- Removing whitespace from a whitespace-free string is the identity. -/
theorem removeWs_of_all {l : List Char} (h : ∀ c ∈ l, pyIsSpace c = false) :
    removeWs l = l :=
  List.filter_eq_self.mpr (fun a ha => by simp [h a ha])

/-- Uppercasing preserves whitespace-freeness. -/
theorem noWs_upperAll {l : List Char} (h : ∀ c ∈ l, pyIsSpace c = false) :
    ∀ c ∈ upperAll l, pyIsSpace c = false := by
  intro c hc
  rcases List.mem_map.mp hc with ⟨a, ha, rfl⟩
  rw [pyIsSpace_pyToUpper]
  exact h a ha

/-- Every character of an uppercased string is a `pyToUpper` fixed point. -/
theorem upperAll_fixed (l : List Char) : ∀ c ∈ upperAll l, pyToUpper c = c := by
  intro c hc
  rcases List.mem_map.mp hc with ⟨a, ha, rfl⟩
  exact pyToUpper_pyToUpper a

/-- Uppercasing a string of fixed points is the identity. -/
theorem upperAll_of_fixed {l : List Char} (h : ∀ c ∈ l, pyToUpper c = c) :
    upperAll l = l := by
  calc upperAll l = l.map id := List.map_congr_left h
    _ = l := List.map_id l

/-- Characters survive the leading-zero stage only from the original string. -/
theorem mem_dropZeros {l : List Char} {c : Char} (hc : c ∈ dropZeros l) : c ∈ l :=
  List.Sublist.mem hc (List.dropWhile_sublist _)

/-- The leading-zero stage is idempotent. -/
theorem dropZeros_dropZeros (l : List Char) : dropZeros (dropZeros l) = dropZeros l :=
  dropWhile_dropWhile _ l

/-- Strip commutes with uppercasing. -/
theorem pyStrip_upperAll (l : List Char) : pyStrip (upperAll l) = upperAll (pyStrip l) := by
  have hp : pyIsSpace ∘ pyToUpper = pyIsSpace := funext fun c => pyIsSpace_pyToUpper c
  unfold pyStrip upperAll
  rw [List.dropWhile_map, hp, ← List.map_reverse, List.dropWhile_map, hp,
    ← List.map_reverse]

/-- If every enabled stage already fixes `x`, the pipeline fixes `x`. -/
theorem normChars_fix (cfg : NormConfig) (x : List Char)
    (hS : cfg.do_strip = true → pyStrip x = x)
    (hW : cfg.remove_spaces = true → removeWs x = x)
    (hU : cfg.to_upper = true → upperAll x = x)
    (hZ : cfg.remove_leading_zeros = true → dropZeros x = x) :
    normChars cfg x = x := by
  rcases cfg with ⟨st, up, ws, z⟩
  simp only [normChars] at *
  cases st <;> cases up <;> cases ws <;> cases z <;> simp_all

/-- With the whitespace-removal stage on, the pipeline output is
whitespace-free. -/
theorem noWs_normChars (st up z : Bool) (s : List Char) :
    ∀ c ∈ normChars ⟨st, up, true, z⟩ s, pyIsSpace c = false := by
  have base := noWs_removeWs (if st = true then pyStrip s else s)
  have hup : ∀ c ∈ (if up = true then
      upperAll (removeWs (if st = true then pyStrip s else s)) else
      removeWs (if st = true then pyStrip s else s)), pyIsSpace c = false := by
    cases up
    · simpa using base
    · simpa using noWs_upperAll base
  have hx : normChars ⟨st, up, true, z⟩ s = (if z = true then
      dropZeros (if up = true then
        upperAll (removeWs (if st = true then pyStrip s else s)) else
        removeWs (if st = true then pyStrip s else s)) else
      (if up = true then
        upperAll (removeWs (if st = true then pyStrip s else s)) else
        removeWs (if st = true then pyStrip s else s))) := by
    cases z <;> cases up <;> cases st <;> simp [normChars]
  intro c hc
  rw [hx] at hc
  cases z
  · simp only [Bool.false_eq_true, if_false] at hc
    exact hup c hc
  · simp only [if_pos] at hc
    exact hup c (mem_dropZeros hc)

/-- With the uppercase stage on, every character of the pipeline output is an
uppercasing fixed point. -/
theorem fixed_normChars_up (st ws z : Bool) (s : List Char) :
    ∀ c ∈ normChars ⟨st, true, ws, z⟩ s, pyToUpper c = c := by
  have base := upperAll_fixed (normChars ⟨st, false, ws, false⟩ s)
  have hx : normChars ⟨st, true, ws, z⟩ s = (if z = true then
      dropZeros (upperAll (normChars ⟨st, false, ws, false⟩ s)) else
      upperAll (normChars ⟨st, false, ws, false⟩ s)) := by
    cases z <;> cases ws <;> cases st <;> simp [normChars]
  intro c hc
  rw [hx] at hc
  cases z
  · simp only [Bool.false_eq_true, if_false] at hc
    exact base c hc
  · simp only [if_pos] at hc
    exact base c (mem_dropZeros hc)

/-- With the leading-zero stage on, the pipeline ends in `dropZeros`. -/
theorem normChars_z_true (st up ws : Bool) (s : List Char) :
    normChars ⟨st, up, ws, true⟩ s = dropZeros (normChars ⟨st, up, ws, false⟩ s) := by
  cases up <;> cases ws <;> cases st <;> simp [normChars]

/-- Idempotence of the pipeline for every toggle combination except
trim on, whitespace-removal off, leading-zero removal on. -/
theorem normChars_idem_flags (st up ws z : Bool) (s : List Char)
    (h : st = false ∨ ws = true ∨ z = false) :
    normChars ⟨st, up, ws, z⟩ (normChars ⟨st, up, ws, z⟩ s) =
      normChars ⟨st, up, ws, z⟩ s := by
  refine normChars_fix _ _ ?_ ?_ ?_ ?_
  · intro hst
    have hst' : st = true := hst
    cases ws with
    | true => exact pyStrip_of_all (noWs_normChars st up z s)
    | false =>
      have hz : z = false := by
        rcases h with h | h | h
        · rw [hst'] at h; cases h
        · cases h
        · exact h
      subst hst'
      subst hz
      have hx : normChars ⟨true, up, false, false⟩ s =
          (if up = true then upperAll (pyStrip s) else pyStrip s) := by
        cases up <;> simp [normChars]
      rw [hx]
      cases up
      · simp only [Bool.false_eq_true, if_false]
        exact pyStrip_pyStrip s
      · simp only [if_pos]
        rw [pyStrip_upperAll, pyStrip_pyStrip]
  · intro hws
    have hws' : ws = true := hws
    subst hws'
    exact removeWs_of_all (noWs_normChars st up z s)
  · intro hup
    have hup' : up = true := hup
    subst hup'
    exact upperAll_of_fixed (fixed_normChars_up st ws z s)
  · intro hz
    have hz' : z = true := hz
    subst hz'
    rw [normChars_z_true]
    exact dropZeros_dropZeros _

/-- C8 counterexample: with trim enabled, internal-whitespace removal
disabled and leading-zero stripping enabled, normalizing "0 1" yields " 1",
and normalizing that output again yields "1", so normalization is not
idempotent for every combination of the four toggles. -/
theorem c8_idempotence_counterexample :
    normalize_style_series ⟨true, true, false, true⟩ (Cell.str "0 1".data) =
      " 1".data ∧
    normalize_style_series ⟨true, true, false, true⟩
        (Cell.str (normalize_style_series ⟨true, true, false, true⟩
          (Cell.str "0 1".data))) = "1".data ∧
    ("1".data : List Char) ≠ " 1".data := by
  refine ⟨by decide, by decide, by decide⟩

/-- C8 (amended): normalization is idempotent for every configuration except
the combination trim enabled, internal-whitespace removal disabled and
leading-zero stripping enabled (there, stripping leading zeros can expose an
inner space at the front of the key, which a second pass then trims). -/
theorem c8_idempotence_amended (cfg : NormConfig) (s : List Char)
    (h : cfg.do_strip = false ∨ cfg.remove_spaces = true ∨
      cfg.remove_leading_zeros = false) :
    normalize_style_series cfg (Cell.str (normalize_style_series cfg (Cell.str s))) =
      normalize_style_series cfg (Cell.str s) := by
  rcases cfg with ⟨st, up, ws, z⟩
  exact normChars_idem_flags st up ws z s h

/-- Witness for the amended C8 at the tool's default configuration. -/
theorem c8_idempotence_amended_witness :
    ((⟨true, true, true, false⟩ : NormConfig).do_strip = false ∨
      (⟨true, true, true, false⟩ : NormConfig).remove_spaces = true ∨
      (⟨true, true, true, false⟩ : NormConfig).remove_leading_zeros = false) ∧
    normalize_style_series ⟨true, true, true, false⟩
        (Cell.str (normalize_style_series ⟨true, true, true, false⟩
          (Cell.str " 0 a1 ".data))) =
      normalize_style_series ⟨true, true, true, false⟩ (Cell.str " 0 a1 ".data) :=
  ⟨Or.inr (Or.inl rfl),
    c8_idempotence_amended ⟨true, true, true, false⟩ " 0 a1 ".data
      (Or.inr (Or.inl rfl))⟩

/-- C9: normalization always yields a string key, never a missing value: the
missing cell NaN stringifies to the canonical "nan" of Python's string
conversion and is passed through the same pipeline as every other value, so
every null cell produces the same key; under the tool's default toggles that
key is "NAN". The result type of `normalize_style_series` is a plain string,
so no input cell can produce a null key. -/
theorem c9_null_key_total :
    (∀ cfg : NormConfig, normalize_style_series cfg Cell.null =
      normChars cfg "nan".data) ∧
    pyStrCell Cell.null = "nan".data ∧
    (∀ (cfg : NormConfig) (c : Cell),
      normalize_style_series cfg c = normChars cfg (pyStrCell c)) ∧
    normalize_style_series ⟨true, true, true, false⟩ Cell.null = "NAN".data :=
  ⟨fun _ => rfl, rfl, fun _ _ => rfl, by decide⟩

/-- Python `c.lower()` on a column name. -/
def lowerStr (l : List Char) : List Char := l.map pyToLower

/-- Python substring containment `t in lc`. -/
def hasSubstr (needle : List Char) : List Char → Bool
  | [] => needle.isEmpty
  | c :: rest => needle.isPrefixOf (c :: rest) || hasSubstr needle rest

/-- The style-role candidate names of src/app.py. -/
def STYLE_CANDIDATES : List (List Char) :=
  ["style".data, "style #".data, "style no".data, "style number".data,
    "style_num".data, "styleid".data, "style id".data]

/-- The chassis-role candidate names of src/app.py. -/
def CHASSIS_CANDIDATES : List (List Char) :=
  ["chassis allocation".data, "chassis_alloc".data, "chassisallocation".data,
    "allocation".data, "chassis".data]

/-- Python `any(t in lc for t in positive_terms)`. -/
def anyTermMatch (terms : List (List Char)) (c : List Char) : Bool :=
  terms.any (fun t => hasSubstr t (lowerStr c))

/-- Python `all(t in lc for t in positive_terms)`. -/
def allTermMatch (terms : List (List Char)) (c : List Char) : Bool :=
  terms.all (fun t => hasSubstr t (lowerStr c))

/-- `guess_column` of src/app.py (lines 17-33): when `require_all` is set,
first scan columns in table order for one whose lowercased name contains
every term and return it; that loop falls through (in the Python code there
is no `else`) to the second loop, which scans columns in table order and
returns the first one containing any term; otherwise `None`. -/
def guess_column (columns terms : List (List Char)) (require_all : Bool) :
    Option (List Char) :=
  if require_all then
    match columns.find? (allTermMatch terms) with
    | some c => some c
    | none => columns.find? (anyTermMatch terms)
  else columns.find? (anyTermMatch terms)

/-- `guess_style_column` of src/app.py. -/
def guess_style_column (columns : List (List Char)) : Option (List Char) :=
  guess_column columns STYLE_CANDIDATES false

/-- `guess_chassis_column` of src/app.py: prefer a column containing both
"chassis" and "alloc"; the Python code then tests the result with `if both:`
(truthiness), so an empty matched name would fall through exactly like
`None` does. -/
def guess_chassis_column (columns : List (List Char)) : Option (List Char) :=
  match guess_column columns ["chassis".data, "alloc".data] true with
  | some c =>
    if c.isEmpty then guess_column columns CHASSIS_CANDIDATES false else some c
  | none => guess_column columns CHASSIS_CANDIDATES false

/-- First-hit characterization of `List.find?` with `false`-valued misses. -/
theorem find?_iff {α : Type} (p : α → Bool) (xs : List α) (b : α) :
    xs.find? p = some b ↔
      p b = true ∧ ∃ u v, xs = u ++ b :: v ∧ ∀ a ∈ u, p a = false := by
  rw [List.find?_eq_some]
  constructor
  · rintro ⟨hp, u, v, hx, hu⟩
    exact ⟨hp, u, v, hx, fun a ha => by simpa using hu a ha⟩
  · rintro ⟨hp, u, v, hx, hu⟩
    exact ⟨hp, u, v, hx, fun a ha => by simp [hu a ha]⟩

/-- A successful guess is always one of the given columns. -/
theorem guess_column_mem {columns terms : List (List Char)} {ra : Bool}
    {c : List Char} (h : guess_column columns terms ra = some c) : c ∈ columns := by
  unfold guess_column at h
  cases ra with
  | false =>
    rw [if_neg (by simp)] at h
    exact List.mem_of_find?_eq_some h
  | true =>
    rw [if_pos rfl] at h
    split at h
    next d hf =>
      rw [Option.some.injEq] at h
      subst h
      exact List.mem_of_find?_eq_some hf
    next hf => exact List.mem_of_find?_eq_some h

/-- A successful chassis guess is always one of the given columns. -/
theorem guess_chassis_column_mem {columns : List (List Char)} {c : List Char}
    (h : guess_chassis_column columns = some c) : c ∈ columns := by
  unfold guess_chassis_column at h
  split at h
  next d hf =>
    by_cases he : d.isEmpty
    · rw [if_pos he] at h
      exact guess_column_mem h
    · rw [if_neg he] at h
      rw [Option.some.injEq] at h
      subst h
      exact guess_column_mem hf
  next hf => exact guess_column_mem h

/-- C10: each column-guessing function returns either `None` or an element
of the input column list exactly as it appears there; no fabricated or
modified name is ever returned. -/
theorem c10_guess_returns_input_column
    (columns terms : List (List Char)) (ra : Bool) :
    (guess_column columns terms ra = none ∨
      ∃ c ∈ columns, guess_column columns terms ra = some c) ∧
    (guess_style_column columns = none ∨
      ∃ c ∈ columns, guess_style_column columns = some c) ∧
    (guess_chassis_column columns = none ∨
      ∃ c ∈ columns, guess_chassis_column columns = some c) := by
  refine ⟨?_, ?_, ?_⟩
  · cases hg : guess_column columns terms ra with
    | none => exact Or.inl rfl
    | some c => exact Or.inr ⟨c, guess_column_mem hg, rfl⟩
  · cases hg : guess_style_column columns with
    | none => exact Or.inl rfl
    | some c => exact Or.inr ⟨c, guess_column_mem hg, rfl⟩
  · cases hg : guess_chassis_column columns with
    | none => exact Or.inl rfl
    | some c => exact Or.inr ⟨c, guess_chassis_column_mem hg, rfl⟩

/-- The tier-2 scan order as the specification words it, for comparison with
`guess_column`: candidates are scanned in priority order and, for each
candidate, columns in table order, the first hit returning. -/
def guess_column_claimed (columns : List (List Char)) :
    List (List Char) → Option (List Char)
  | [] => none
  | t :: rest =>
    match columns.find? (fun c => hasSubstr t (lowerStr c)) with
    | some c => some c
    | none => guess_column_claimed columns rest

/-- C3 counterexample: the code scans columns in table order and, for each
column, accepts any candidate, so with columns
["Total Allocation", "Chassis Allocation"] and the chassis candidate list
(highest priority "chassis allocation") it returns "Total Allocation",
while the claimed candidate-priority scan returns "Chassis Allocation". -/
theorem c3_scan_order_counterexample :
    guess_column ["Total Allocation".data, "Chassis Allocation".data]
      CHASSIS_CANDIDATES false = some "Total Allocation".data ∧
    guess_column_claimed ["Total Allocation".data, "Chassis Allocation".data]
      CHASSIS_CANDIDATES = some "Chassis Allocation".data ∧
    some ("Total Allocation".data) ≠ some ("Chassis Allocation".data) := by
  refine ⟨by decide, by decide, by decide⟩

/-- C3 (amended): the resolver applies its tiers in order, first success
wins. With `require_all`, the first column in table order containing every
required token is returned when one exists, and otherwise the scan falls
through to the any-token tier. The any-token tier scans columns in table
order and returns the first column whose lowercased name contains ANY
candidate phrase as a substring; the candidate list order induces no
priority in this tier. Columns ["Style #", "Cust Dept", "Qty"] with
candidates ["style", "style #", "style no"] resolve to "Style #". -/
theorem c3_resolution_tiers_amended (columns terms : List (List Char))
    (c : List Char) :
    (guess_column columns terms false = some c ↔
      anyTermMatch terms c = true ∧ ∃ l1 l2, columns = l1 ++ c :: l2 ∧
        ∀ d ∈ l1, anyTermMatch terms d = false) ∧
    (guess_column columns terms false = none ↔
      ∀ d ∈ columns, anyTermMatch terms d = false) ∧
    (guess_column columns terms true = some c ↔
      (allTermMatch terms c = true ∧ ∃ l1 l2, columns = l1 ++ c :: l2 ∧
        ∀ d ∈ l1, allTermMatch terms d = false) ∨
      ((∀ d ∈ columns, allTermMatch terms d = false) ∧
        anyTermMatch terms c = true ∧ ∃ l1 l2, columns = l1 ++ c :: l2 ∧
          ∀ d ∈ l1, anyTermMatch terms d = false)) ∧
    guess_column ["Style #".data, "Cust Dept".data, "Qty".data]
      ["style".data, "style #".data, "style no".data] false =
      some "Style #".data := by
  have hfalse : guess_column columns terms false =
      columns.find? (anyTermMatch terms) := by
    unfold guess_column
    rw [if_neg (by simp)]
  refine ⟨?_, ?_, ?_, by decide⟩
  · rw [hfalse]
    exact find?_iff _ _ _
  · rw [hfalse, List.find?_eq_none]
    constructor
    · intro h d hd
      simpa using h d hd
    · intro h d hd
      simp [h d hd]
  · have htrue : guess_column columns terms true =
        (match columns.find? (allTermMatch terms) with
          | some d => some d
          | none => columns.find? (anyTermMatch terms)) := by
      unfold guess_column
      rw [if_pos rfl]
    rw [htrue]
    cases hf : columns.find? (allTermMatch terms) with
    | some d =>
      constructor
      · intro h
        rw [Option.some.injEq] at h
        subst h
        exact Or.inl ((find?_iff _ _ _).mp hf)
      · intro h
        rcases h with h | ⟨hall, _⟩
        · rw [Option.some.injEq]
          have := (find?_iff _ _ _).mpr h
          rw [hf] at this
          rw [Option.some.injEq] at this
          exact this
        · exfalso
          have hmem := List.mem_of_find?_eq_some hf
          have hp := List.find?_some hf
          rw [hall d hmem] at hp
          cases hp
    | none =>
      have hallnone : ∀ d ∈ columns, allTermMatch terms d = false := by
        intro d hd
        have := List.find?_eq_none.mp hf d hd
        simpa using this
      constructor
      · intro h
        exact Or.inr ⟨hallnone, (find?_iff _ _ _).mp h⟩
      · intro h
        rcases h with ⟨hc, hrest⟩ | ⟨_, hany⟩
        · exfalso
          have := (find?_iff _ _ _).mpr ⟨hc, hrest⟩
          rw [hf] at this
          cases this
        · exact (find?_iff _ _ _).mpr hany
    
/-- Witness for the amended C3 at the spec's own example. -/
theorem c3_resolution_tiers_witness :
    anyTermMatch ["style".data, "style #".data, "style no".data]
      "Style #".data = true ∧
    ∃ l1 l2, (["Style #".data, "Cust Dept".data, "Qty".data] :
      List (List Char)) = l1 ++ "Style #".data :: l2 ∧
      ∀ d ∈ l1, anyTermMatch ["style".data, "style #".data, "style no".data]
        d = false :=
  (c3_resolution_tiers_amended ["Style #".data, "Cust Dept".data, "Qty".data]
    ["style".data, "style #".data, "style no".data] "Style #".data).1.mp
    (by decide)

/-- Modelled from the spec: the tier-3 approximate-similarity fallback of the
Column Resolver (spec section 4.1, item 3), which is missing from
src/app.py (it belongs to the other variants of the repository). Modelled
from the spec's words, parametrically in the normalized similarity scorer:
candidates are scanned in priority order, and for the first candidate that
has any column whose score exceeds the fixed 0.7 threshold, the first such
column in table order is returned. -/
def fuzzyTier (score : List Char → List Char → ℚ) (columns : List (List Char)) :
    List (List Char) → Option (List Char)
  | [] => none
  | t :: rest =>
    match columns.find? (fun c => decide ((7 : ℚ)/10 < score t c)) with
    | some c => some c
    | none => fuzzyTier score columns rest

/-- Modelled from the spec: the full resolver with the fuzzy fallback — the
containment tiers of `guess_column` first, then `fuzzyTier`, else
unresolved. -/
def resolve_with_fuzzy (score : List Char → List Char → ℚ)
    (columns terms : List (List Char)) (require_all : Bool) :
    Option (List Char) :=
  match guess_column columns terms require_all with
  | some c => some c
  | none => fuzzyTier score columns terms

/-- The fuzzy tier fails exactly when no candidate-column pair scores above
the threshold. -/
theorem fuzzyTier_eq_none_iff (score : List Char → List Char → ℚ)
    (columns terms : List (List Char)) :
    fuzzyTier score columns terms = none ↔
      ∀ t ∈ terms, ∀ c ∈ columns, ¬((7 : ℚ)/10 < score t c) := by
  induction terms with
  | nil => simp [fuzzyTier]
  | cons t rest ih =>
    constructor
    · intro h
      simp only [fuzzyTier] at h
      split at h
      next d _ => cases h
      next hf =>
        intro t' ht' c hc
        rcases List.mem_cons.mp ht' with rfl | ht'
        · have := List.find?_eq_none.mp hf c hc
          simpa using this
        · exact ih.mp h t' ht' c hc
    · intro hall
      have hf : columns.find? (fun d => decide ((7 : ℚ)/10 < score t d)) = none :=
        List.find?_eq_none.mpr (fun d hd => by
          simpa using hall t (List.mem_cons_self t rest) d hd)
      simp only [fuzzyTier]
      rw [hf]
      exact ih.mpr (fun t' ht' c hc => hall t' (List.mem_cons_of_mem t ht') c hc)

/-- A fuzzy-tier hit is the first above-threshold column for the
highest-priority candidate having any above-threshold column. -/
theorem fuzzyTier_eq_some (score : List Char → List Char → ℚ)
    (columns terms : List (List Char)) (c : List Char)
    (h : fuzzyTier score columns terms = some c) :
    ∃ u t v, terms = u ++ t :: v ∧
      (∀ t' ∈ u, ∀ d ∈ columns, ¬((7 : ℚ)/10 < score t' d)) ∧
      ∃ l1 l2, columns = l1 ++ c :: l2 ∧ ((7 : ℚ)/10 < score t c) ∧
        ∀ d ∈ l1, ¬((7 : ℚ)/10 < score t d) := by
  induction terms with
  | nil => simp [fuzzyTier] at h
  | cons t rest ih =>
    simp only [fuzzyTier] at h
    split at h
    next d hf =>
      rw [Option.some.injEq] at h
      subst h
      refine ⟨[], t, rest, rfl, by simp, ?_⟩
      rcases (find?_iff _ _ _).mp hf with ⟨hp, l1, l2, hcols, hmiss⟩
      refine ⟨l1, l2, hcols, by simpa using hp, fun d' hd' => ?_⟩
      have := hmiss d' hd'
      simpa using this
    next hf =>
      rcases ih h with ⟨u, t', v, hterms, hu, hrest⟩
      refine ⟨t :: u, t', v, by rw [hterms, List.cons_append], ?_, hrest⟩
      intro t'' ht'' d hd
      rcases List.mem_cons.mp ht'' with rfl | ht''
      · have := List.find?_eq_none.mp hf d hd
        simpa using this
      · exact hu t'' ht'' d hd

/-- C4: when neither containment tier matches, the resolver falls back to
the approximate-similarity tier with a normalized score in the unit
interval and acceptance threshold 0.7: the result is the first
above-threshold column for the highest-priority candidate with any
above-threshold column, and only if no candidate-column pair exceeds the
threshold is the result unresolved. -/
theorem c4_fuzzy_fallback (score : List Char → List Char → ℚ)
    (columns terms : List (List Char)) (ra : Bool)
    (_hrange : ∀ a b, 0 ≤ score a b ∧ score a b ≤ 1)
    (hmiss : guess_column columns terms ra = none) :
    resolve_with_fuzzy score columns terms ra = fuzzyTier score columns terms ∧
    (resolve_with_fuzzy score columns terms ra = none ↔
      ∀ t ∈ terms, ∀ c ∈ columns, ¬((7 : ℚ)/10 < score t c)) ∧
    ∀ c, resolve_with_fuzzy score columns terms ra = some c →
      ∃ u t v, terms = u ++ t :: v ∧
        (∀ t' ∈ u, ∀ d ∈ columns, ¬((7 : ℚ)/10 < score t' d)) ∧
        ∃ l1 l2, columns = l1 ++ c :: l2 ∧ ((7 : ℚ)/10 < score t c) ∧
          ∀ d ∈ l1, ¬((7 : ℚ)/10 < score t d) := by
  have he : resolve_with_fuzzy score columns terms ra =
      fuzzyTier score columns terms := by
    unfold resolve_with_fuzzy
    rw [hmiss]
  refine ⟨he, ?_, ?_⟩
  · rw [he]
    exact fuzzyTier_eq_none_iff score columns terms
  · intro c hc
    rw [he] at hc
    exact fuzzyTier_eq_some score columns terms c hc

/-- Witness for C4 with a constant scorer 9/10 on a column list that defeats
both containment tiers. -/
theorem c4_fuzzy_fallback_witness :
    resolve_with_fuzzy (fun _ _ => (9 : ℚ)/10) ["styl".data] ["style".data]
      false = fuzzyTier (fun _ _ => (9 : ℚ)/10) ["styl".data] ["style".data] :=
  (c4_fuzzy_fallback (fun _ _ => (9 : ℚ)/10) ["styl".data] ["style".data]
    false (fun _ _ => by norm_num) (by decide)).1

/-- A normalized join key (the `_STYLE_KEY_` column). -/
abbrev Key := List Char

/-- One row of `s_reduced = s[["_STYLE_KEY_", st_alloc_col]]`: the normalized
key with the allocation cell. -/
abbrev RRow := Key × Cell

/-- One decimal digit. -/
def digitVal (c : Char) : Option Nat :=
  if 48 ≤ c.toNat ∧ c.toNat ≤ 57 then some (c.toNat - 48) else none

/-- Accumulating all-digit parse. -/
def parseDigitsAux (acc : Nat) : List Char → Option Nat
  | [] => some acc
  | c :: rest =>
    match digitVal c with
    | some d => parseDigitsAux (10 * acc + d) rest
    | none => none

/-- A nonempty all-digit string to a number. -/
def parseDigits : List Char → Option Nat
  | [] => none
  | l => parseDigitsAux 0 l

/-- An optional-sign integer literal to a number. -/
def parseIntChars : List Char → Option Int
  | [] => none
  | c :: rest =>
    if c.toNat = 45 then (parseDigits rest).map (fun n => -(n : Int))
    else (parseDigits (c :: rest)).map (fun n => (n : Int))

/-- `pd.to_numeric(x, errors="coerce")` on one cell, restricted here to
optional-sign integer literals: a missing cell or an unparseable string
coerces to NaN (`none`), numbers pass through. -/
def to_numeric : Cell → Option Int
  | Cell.null => none
  | Cell.num n => some n
  | Cell.str s => parseIntChars s

/-- The structured table with its normalized key column
(`s["_STYLE_KEY_"] = normalize_style_series(s[st_style_col], ...)`),
restricted to the key and allocation columns. -/
def rightKeyed (cfg : NormConfig) (right : List (Cell × Cell)) : List RRow :=
  right.map (fun r => (normalize_style_series cfg r.1, r.2))

/-- pandas `drop_duplicates("_STYLE_KEY_", keep="first")`: a row is kept
exactly when its key has not occurred in an earlier row. -/
def dedupeFirstAux (seen : List Key) : List RRow → List RRow
  | [] => []
  | r :: rest =>
    if r.1 ∈ seen then dedupeFirstAux seen rest
    else r :: dedupeFirstAux (r.1 :: seen) rest

/-- The "Keep first" reduction of src/app.py (lines 197-201). -/
def drop_duplicates_first (rows : List RRow) : List RRow :=
  dedupeFirstAux [] rows

/-- The distinct normalized keys, one per `groupby("_STYLE_KEY_")` group
(pandas sorts the group keys, but nothing downstream depends on the row
order of the reduced table, so first-occurrence order is used here). -/
def distinctKeys (rows : List RRow) : List Key :=
  (drop_duplicates_first rows).map (fun r => r.1)

/-- The rows of one key. -/
def keyRows (rows : List RRow) (k : Key) : List RRow :=
  rows.filter (fun r => decide (r.1 = k))

/-- The successfully parsed allocation values of one key (the `_alloc_num_`
column of the key's group, NaNs skipped). -/
def parsedOf (rows : List RRow) (k : Key) : List Int :=
  (keyRows rows k).filterMap (fun r => to_numeric r.2)

/-- pandas `dropna(subset=[st_alloc_col]).sort_index()
.drop_duplicates("_STYLE_KEY_")` probed at one key: the first row of the
key, in original order, whose allocation cell is non-null. -/
def firstNonNull (rows : List RRow) (k : Key) : Option Cell :=
  ((rows.filter (fun r => decide (r.1 = k) && !r.2.isNull)).head?).map
    (fun r => r.2)

/-- The "Sum allocations" consolidation of one key (src/app.py lines
180-196): group sum of the `to_numeric` coercions with `min_count=1` (a
group with no parseable value yields NaN), then `where(notna, fallback)`
with the first non-null original value as fallback from the left merge with
`fallback_first`; a key all of whose allocation cells are null keeps NaN. -/
def sumValue (rows : List RRow) (k : Key) : Cell :=
  if parsedOf rows k = [] then
    match firstNonNull rows k with
    | some v => v
    | none => Cell.null
  else Cell.num (parsedOf rows k).sum

/-- The reduced structured table under "Sum allocations": one row per
distinct normalized key. -/
def reduceSum (rows : List RRow) : List RRow :=
  (distinctKeys rows).map (fun k => (k, sumValue rows k))

/-- The duplicate-handling selector of the UI ("Keep first" /
"Sum allocations"). -/
inductive DupPolicy where
  | keepFirst : DupPolicy
  | sumAllocations : DupPolicy
deriving DecidableEq

/-- `structured_final`: the structured side reduced per policy. -/
def reduceRight : DupPolicy → List RRow → List RRow
  | DupPolicy.keepFirst, rows => drop_duplicates_first rows
  | DupPolicy.sumAllocations, rows => reduceSum rows

/-- pandas `u.merge(structured_final, on="_STYLE_KEY_", how="left")`: each
left row is emitted once per matching right row, and once with a missing
value when no right row matches; left order is preserved. -/
def mergeRow {α : Type} (reduced : List RRow) (l : α × Key) :
    List ((α × Key) × Option Cell) :=
  let ms := reduced.filter (fun r => decide (r.1 = l.2))
  if ms.isEmpty then [(l, none)] else ms.map (fun r => (l, some r.2))

/-- The left merge over all left rows. -/
def leftMerge {α : Type} (left : List (α × Key)) (reduced : List RRow) :
    List ((α × Key) × Option Cell) :=
  left.flatMap (mergeRow reduced)

/-- The whole "Consolidate" run of src/app.py (lines 159-207) on the data
level: normalized keys on both sides, policy reduction of the structured
side, then the left merge; each result row is a left row paired with its
key and the attached allocation (`none` is the NaN of a failed match). -/
def consolidate {α : Type} (left : List α) (leftKey : α → Cell)
    (right : List (Cell × Cell)) (cfg : NormConfig) (pol : DupPolicy) :
    List ((α × Key) × Option Cell) :=
  leftMerge (left.map (fun a => (a, normalize_style_series cfg (leftKey a))))
    (reduceRight pol (rightKeyed cfg right))

/-- `total_rows = len(consolidated)`. -/
def totalRows {α : Type} (res : List ((α × Key) × Option Cell)) : Nat :=
  res.length

/-- The merge of line 204 runs with `suffixes=("", "_y")`: left columns keep
their names, and an incoming structured column whose name collides with a
left column is renamed with "_y". The column selection
`consolidated[st_alloc_col]` of line 211 therefore reads the unstructured
table's own column when the unstructured table already owns a column named
`st_alloc_col`, and only otherwise the merge-attached column. `uColumns`
is the unstructured table's column-name list, `uCell` a left row's cell in
the unstructured table's own column of that name (meaningful when the name
is present). -/
def allocColRead {α : Type} (uColumns : List (List Char))
    (st_alloc_col : List Char) (uCell : α → Cell)
    (res : List ((α × Key) × Option Cell)) : List (Option Cell) :=
  if st_alloc_col ∈ uColumns then res.map (fun pr => some (uCell pr.1.1))
  else res.map (fun pr => pr.2)

/-- pandas `.notna().sum()` over a column of possibly-missing cells (a null
cell and an absent value are the same NaN in the real dataframe). -/
def notnaCount (col : List (Option Cell)) : Nat :=
  col.countP (fun c =>
    match c with
    | some v => !v.isNull
    | none => false)

/-- `matched_rows = consolidated[st_alloc_col].notna().sum()` (line 211),
including the suffix behavior of the preceding merge. -/
def matchedRows {α : Type} (uColumns : List (List Char))
    (st_alloc_col : List Char) (uCell : α → Cell)
    (res : List ((α × Key) × Option Cell)) : Nat :=
  notnaCount (allocColRead uColumns st_alloc_col uCell res)

/-- `unmatched_rows = total_rows - matched_rows`. -/
def unmatchedRows {α : Type} (uColumns : List (List Char))
    (st_alloc_col : List Char) (uCell : α → Cell)
    (res : List ((α × Key) × Option Cell)) : Nat :=
  totalRows res - matchedRows uColumns st_alloc_col uCell res

/-- The value a keyed table associates to a key (first hit in row order). -/
def lookupRow (rows : List RRow) (k : Key) : Option Cell :=
  (rows.find? (fun r => decide (r.1 = k))).map (fun r => r.2)

/-- Keys surviving the keep-first dedupe avoid the seen set. -/
theorem dedupeFirstAux_keys_not_seen (rows : List RRow) :
    ∀ (seen : List Key), ∀ k ∈ (dedupeFirstAux seen rows).map (fun r => r.1),
      k ∉ seen := by
  induction rows with
  | nil => intro seen k hk; cases hk
  | cons r rest ih =>
    intro seen k hk
    simp only [dedupeFirstAux] at hk
    by_cases hmem : r.1 ∈ seen
    · rw [if_pos hmem] at hk
      exact ih seen k hk
    · rw [if_neg hmem, List.map_cons] at hk
      rcases List.mem_cons.mp hk with rfl | hk
      · exact hmem
      · intro hs
        exact ih (r.1 :: seen) k hk (List.mem_cons_of_mem _ hs)

/-- The keep-first dedupe leaves no duplicate keys. -/
theorem dedupeFirstAux_keys_nodup (rows : List RRow) :
    ∀ seen : List Key, ((dedupeFirstAux seen rows).map (fun r => r.1)).Nodup := by
  induction rows with
  | nil => intro seen; exact List.nodup_nil
  | cons r rest ih =>
    intro seen
    simp only [dedupeFirstAux]
    by_cases hmem : r.1 ∈ seen
    · rw [if_pos hmem]
      exact ih seen
    · rw [if_neg hmem, List.map_cons]
      refine List.nodup_cons.mpr ⟨?_, ih (r.1 :: seen)⟩
      intro hk
      exact dedupeFirstAux_keys_not_seen rest (r.1 :: seen) r.1 hk
        (List.mem_cons_self _ _)

/-- The keep-first dedupe keeps original rows in original order. -/
theorem dedupeFirstAux_sublist (rows : List RRow) :
    ∀ seen : List Key, (dedupeFirstAux seen rows).Sublist rows := by
  induction rows with
  | nil => intro seen; exact List.Sublist.refl []
  | cons r rest ih =>
    intro seen
    simp only [dedupeFirstAux]
    by_cases hmem : r.1 ∈ seen
    · rw [if_pos hmem]
      exact List.Sublist.cons r (ih seen)
    · rw [if_neg hmem]
      exact List.Sublist.cons₂ r (ih (r.1 :: seen))

/-- Looking up a cons row. -/
theorem lookupRow_cons (r : RRow) (rows : List RRow) (k : Key) :
    lookupRow (r :: rows) k =
      if r.1 = k then some r.2 else lookupRow rows k := by
  unfold lookupRow
  by_cases h : r.1 = k
  · rw [if_pos h, List.find?_cons_of_pos _ (by simp [h])]
    rfl
  · rw [if_neg h, List.find?_cons_of_neg _ (by simp [h])]

/-- The keep-first dedupe preserves every key's first-hit lookup. -/
theorem lookupRow_dedupeFirstAux (rows : List RRow) :
    ∀ (seen : List Key) (k : Key), k ∉ seen →
      lookupRow (dedupeFirstAux seen rows) k = lookupRow rows k := by
  induction rows with
  | nil => intro seen k _; rfl
  | cons r rest ih =>
    intro seen k hk
    simp only [dedupeFirstAux]
    by_cases hmem : r.1 ∈ seen
    · rw [if_pos hmem, lookupRow_cons,
        if_neg (fun he => hk (by rw [he] at hmem; exact hmem))]
      exact ih seen k hk
    · rw [if_neg hmem, lookupRow_cons, lookupRow_cons]
      by_cases he : r.1 = k
      · rw [if_pos he, if_pos he]
      · rw [if_neg he, if_neg he]
        exact ih (r.1 :: seen) k (by
          intro hs
          rcases List.mem_cons.mp hs with h1 | h1
          · exact he h1.symm
          · exact hk h1)

/-- With duplicate-free keys, filtering by one key yields the found row or
nothing. -/
theorem filter_key_of_nodup {rows : List RRow}
    (h : (rows.map (fun r => r.1)).Nodup) (k : Key) :
    rows.filter (fun r => decide (r.1 = k)) =
      match rows.find? (fun r => decide (r.1 = k)) with
      | some r => [r]
      | none => [] := by
  induction rows with
  | nil => rfl
  | cons r rest ih =>
    rw [List.map_cons] at h
    obtain ⟨hnot, hnd⟩ := List.nodup_cons.mp h
    by_cases he : r.1 = k
    · rw [List.filter_cons, if_pos (by simp [he]),
        List.find?_cons_of_pos _ (by simp [he])]
      have hf : rest.filter (fun r' => decide (r'.1 = k)) = [] := by
        rw [List.filter_eq_nil_iff]
        intro r' hr'
        simp only [decide_eq_true_eq]
        intro he'
        exact hnot (by
          rw [he, ← he']
          exact List.mem_map.mpr ⟨r', hr', rfl⟩)
      rw [hf]
    · rw [List.filter_cons, if_neg (by simp [he]),
        List.find?_cons_of_neg _ (by simp [he])]
      exact ih hnd

/-- With duplicate-free keys, merging one left row yields exactly one output
row carrying the key's lookup. -/
theorem mergeRow_eq {α : Type} (reduced : List RRow) (l : α × Key)
    (h : (reduced.map (fun r => r.1)).Nodup) :
    mergeRow reduced l = [(l, lookupRow reduced l.2)] := by
  unfold mergeRow
  cases hf : reduced.find? (fun r => decide (r.1 = l.2)) with
  | none =>
    have hml : reduced.filter (fun r => decide (r.1 = l.2)) = [] := by
      rw [filter_key_of_nodup h l.2, hf]
    rw [hml]
    unfold lookupRow
    rw [hf]
    rfl
  | some r =>
    have hml : reduced.filter (fun r => decide (r.1 = l.2)) = [r] := by
      rw [filter_key_of_nodup h l.2, hf]
    rw [hml]
    unfold lookupRow
    rw [hf]
    rfl

/-- With duplicate-free right keys, the left merge is exactly one output row
per left row, in left order, carrying each key's lookup. -/
theorem leftMerge_eq_map {α : Type} (left : List (α × Key)) (reduced : List RRow)
    (h : (reduced.map (fun r => r.1)).Nodup) :
    leftMerge left reduced = left.map (fun l => (l, lookupRow reduced l.2)) := by
  induction left with
  | nil => rfl
  | cons l ls ih =>
    calc leftMerge (l :: ls) reduced
        = mergeRow reduced l ++ leftMerge ls reduced :=
          List.flatMap_cons l ls (mergeRow reduced)
      _ = [(l, lookupRow reduced l.2)] ++
          ls.map (fun x => (x, lookupRow reduced x.2)) := by
          rw [mergeRow_eq reduced l h, ih]
      _ = (l :: ls).map (fun x => (x, lookupRow reduced x.2)) := by
          rw [List.map_cons]
          rfl

/-- The keys of the sum reduction are the distinct keys. -/
theorem reduceSum_keys (rows : List RRow) :
    (reduceSum rows).map (fun r => r.1) = distinctKeys rows := by
  unfold reduceSum
  rw [List.map_map]
  exact List.map_id' _

/-- Deduplicated keys are exactly the original keys. -/
theorem mem_dedupeFirstAux_keys (rows : List RRow) :
    ∀ (seen : List Key) (k : Key), k ∉ seen →
      (k ∈ (dedupeFirstAux seen rows).map (fun r => r.1) ↔
        k ∈ rows.map (fun r => r.1)) := by
  induction rows with
  | nil => intro seen k _; exact Iff.rfl
  | cons r rest ih =>
    intro seen k hk
    simp only [dedupeFirstAux]
    by_cases hmem : r.1 ∈ seen
    · rw [if_pos hmem, List.map_cons, ih seen k hk, List.mem_cons]
      constructor
      · exact fun h => Or.inr h
      · intro h
        rcases h with rfl | h
        · exact absurd hmem hk
        · exact h
    · rw [if_neg hmem, List.map_cons, List.map_cons]
      by_cases he : k = r.1
      · subst he
        constructor
        · intro _
          exact List.mem_cons_self _ _
        · intro _
          exact List.mem_cons_self _ _
      · rw [List.mem_cons, List.mem_cons,
          ih (r.1 :: seen) k (by
            intro hs
            rcases List.mem_cons.mp hs with h1 | h1
            · exact he h1
            · exact hk h1)]

/-- Distinct keys are exactly the original keys. -/
theorem mem_distinctKeys {rows : List RRow} {k : Key} :
    k ∈ distinctKeys rows ↔ k ∈ rows.map (fun r => r.1) :=
  mem_dedupeFirstAux_keys rows [] k (List.not_mem_nil k)

/-- Finding a present key in a key-indexed map of pairs. -/
theorem find?_map_pair (ks : List Key) (f : Key → Cell) (k : Key) (hk : k ∈ ks) :
    (ks.map (fun x => (x, f x))).find? (fun r => decide (r.1 = k)) =
      some (k, f k) := by
  induction ks with
  | nil => cases hk
  | cons a t ih =>
    rw [List.map_cons]
    by_cases he : a = k
    · subst he
      rw [List.find?_cons_of_pos _ (by simp)]
    · rw [List.find?_cons_of_neg _ (by simp [he])]
      refine ih ?_
      rcases List.mem_cons.mp hk with h | h
      · exact absurd h.symm he
      · exact h

/-- The sum reduction associates each present key to its consolidated
value. -/
theorem lookupRow_reduceSum (rows : List RRow) (k : Key)
    (hk : k ∈ rows.map (fun r => r.1)) :
    lookupRow (reduceSum rows) k = some (sumValue rows k) := by
  have hk' : k ∈ distinctKeys rows := mem_distinctKeys.mpr hk
  unfold lookupRow reduceSum
  rw [find?_map_pair (distinctKeys rows) (sumValue rows) k hk']
  rfl

/-- Either policy reduction leaves duplicate-free keys. -/
theorem reduceRight_keys_nodup (pol : DupPolicy) (rows : List RRow) :
    ((reduceRight pol rows).map (fun r => r.1)).Nodup := by
  cases pol with
  | keepFirst => exact dedupeFirstAux_keys_nodup rows []
  | sumAllocations =>
    show ((reduceSum rows).map (fun r => r.1)).Nodup
    rw [reduceSum_keys]
    exact dedupeFirstAux_keys_nodup rows []

/-- C1: for every left table, key selector, right table, normalization
configuration and either duplicate policy, the consolidated result has
exactly one row per left row, in left order: left rows are never dropped,
never duplicated by multiple right-side matches (the right side is reduced
to one row per key before the merge), and duplicate keys occurring only on
the left are never deduplicated. -/
theorem c1_every_left_row_exactly_once (α : Type) (left : List α)
    (leftKey : α → Cell) (right : List (Cell × Cell)) (cfg : NormConfig)
    (pol : DupPolicy) :
    (consolidate left leftKey right cfg pol).map (fun r => r.1.1) = left ∧
    (consolidate left leftKey right cfg pol).length = left.length := by
  have hnodup := reduceRight_keys_nodup pol (rightKeyed cfg right)
  have hmap := leftMerge_eq_map
    (left.map (fun a => (a, normalize_style_series cfg (leftKey a))))
    (reduceRight pol (rightKeyed cfg right)) hnodup
  constructor
  · show (leftMerge _ _).map _ = left
    rw [hmap, List.map_map, List.map_map]
    exact List.map_id' left
  · show (leftMerge _ _).length = left.length
    rw [hmap, List.length_map, List.length_map]

/-- C7: under the "Keep first" policy the reduced right table keeps original
rows in original order (a subsequence), has duplicate-free keys, and
associates every key exactly to the value of its first row in original
order, later duplicate rows being discarded; reference rows
[(K, "a"), (K, "b")] consolidate K to "a". -/
theorem c7_keep_first (rows : List RRow) :
    (drop_duplicates_first rows).Sublist rows ∧
    ((drop_duplicates_first rows).map (fun r => r.1)).Nodup ∧
    (∀ k : Key, lookupRow (drop_duplicates_first rows) k = lookupRow rows k) ∧
    reduceRight DupPolicy.keepFirst
      [("K".data, Cell.str "a".data), ("K".data, Cell.str "b".data)] =
      [("K".data, Cell.str "a".data)] := by
  refine ⟨dedupeFirstAux_sublist rows [], dedupeFirstAux_keys_nodup rows [],
    fun k => lookupRow_dedupeFirstAux rows [] k (List.not_mem_nil k), by decide⟩

/-- C2 counterexample: under "Sum allocations", reference rows
[(K, null), (K, "b")] have no parseable numeric value, and the code's
fallback (built after `dropna(subset=[st_alloc_col])`) is the first row
with a NON-null value, "b" — not the value of the first row in original
order, which is null here, as the claim states. -/
theorem c2_sum_fallback_counterexample :
    lookupRow (reduceSum [("K".data, Cell.null), ("K".data, Cell.str "b".data)])
      "K".data = some (Cell.str "b".data) ∧
    (([("K".data, Cell.null), ("K".data, Cell.str "b".data)] :
      List RRow).head?).map (fun r => r.2) = some Cell.null ∧
    some (Cell.str "b".data) ≠ some Cell.null := by
  refine ⟨by decide, by decide, by decide⟩

/-- C2 (amended): under "Sum allocations", for every key present on the
right side: if at least one allocation cell of the key parses as numeric,
the consolidated value is the sum of all successfully parsed values;
otherwise it is the value of the first row of the key with a non-null
allocation cell (in original row order), even if non-numeric, and null when
every allocation cell of the key is null. Rows [(K,"5"), (K,"3"), (K,"x")]
consolidate K to 8, and [(K,"a"), (K,"b")] consolidate K to "a". -/
theorem c2_sum_fallback_first_amended (rows : List RRow) (k : Key) :
    (parsedOf rows k ≠ [] →
      lookupRow (reduceSum rows) k = some (Cell.num (parsedOf rows k).sum)) ∧
    (parsedOf rows k = [] → k ∈ rows.map (fun r => r.1) →
      lookupRow (reduceSum rows) k =
        some ((firstNonNull rows k).getD Cell.null)) ∧
    lookupRow (reduceSum [("K".data, Cell.str "5".data),
      ("K".data, Cell.str "3".data), ("K".data, Cell.str "x".data)])
      "K".data = some (Cell.num 8) ∧
    lookupRow (reduceSum [("K".data, Cell.str "a".data),
      ("K".data, Cell.str "b".data)]) "K".data =
      some (Cell.str "a".data) := by
  refine ⟨?_, ?_, by decide, by decide⟩
  · intro hne
    have hk : k ∈ rows.map (fun r => r.1) := by
      by_contra hk
      apply hne
      have hkr : keyRows rows k = [] := by
        rw [keyRows, List.filter_eq_nil_iff]
        intro r hr
        simp only [decide_eq_true_eq]
        intro he
        exact hk (by
          rw [← he]
          exact List.mem_map.mpr ⟨r, hr, rfl⟩)
      unfold parsedOf
      rw [hkr]
      rfl
    rw [lookupRow_reduceSum rows k hk]
    unfold sumValue
    rw [if_neg hne]
  · intro hemp hk
    rw [lookupRow_reduceSum rows k hk]
    unfold sumValue
    rw [if_pos hemp]
    cases firstNonNull rows k with
    | none => rfl
    | some v => rfl

/-- Witness for the amended C2 at the spec's own summation example. -/
theorem c2_sum_fallback_first_witness :
    (parsedOf [("K".data, Cell.str "5".data), ("K".data, Cell.str "3".data),
      ("K".data, Cell.str "x".data)] "K".data ≠ []) ∧
    lookupRow (reduceSum [("K".data, Cell.str "5".data),
      ("K".data, Cell.str "3".data), ("K".data, Cell.str "x".data)])
      "K".data = some (Cell.num (parsedOf [("K".data, Cell.str "5".data),
        ("K".data, Cell.str "3".data), ("K".data, Cell.str "x".data)]
        "K".data).sum) :=
  ⟨by decide, (c2_sum_fallback_first_amended _ "K".data).1 (by decide)⟩

/-- C6 counterexample: when the unstructured table already owns a column
named like the structured allocation column, the merge suffixes the
attached column with "_y" and line 211 counts the unstructured table's own
column: a 10-row left table whose own "Chassis Allocation" column is
entirely non-null, but whose keys all miss the reference table, is reported
as matched = 10, although the number of rows with a non-null attached value
is 0 and the claim requires matched = 0. -/
theorem c6_alloc_name_collision_counterexample :
    matchedRows ["Style".data, "Chassis Allocation".data]
      "Chassis Allocation".data (fun _ => Cell.num 5)
      (consolidate [Cell.str "1".data, Cell.str "2".data,
        Cell.str "3".data, Cell.str "4".data, Cell.str "5".data,
        Cell.str "6".data, Cell.str "7".data, Cell.str "8".data,
        Cell.str "9".data, Cell.str "10".data] (fun c => c)
        [(Cell.str "Z".data, Cell.num 0)]
        ⟨false, false, false, false⟩ DupPolicy.keepFirst) = 10 ∧
    notnaCount ((consolidate [Cell.str "1".data, Cell.str "2".data,
        Cell.str "3".data, Cell.str "4".data, Cell.str "5".data,
        Cell.str "6".data, Cell.str "7".data, Cell.str "8".data,
        Cell.str "9".data, Cell.str "10".data] (fun c => c)
        [(Cell.str "Z".data, Cell.num 0)]
        ⟨false, false, false, false⟩ DupPolicy.keepFirst).map
      (fun pr => pr.2)) = 0 ∧
    (10 : Nat) ≠ 0 := by
  refine ⟨by decide, by decide, by decide⟩

/-- C6 (amended): provided the unstructured table does not already own a
column named like the structured allocation column (so the merge of line
204 attaches the structured values under that very name), every left row
whose normalized key is absent from the reduced right table gets the
genuine missing marker `none`, distinguishable from an empty-string cell;
the counts satisfy total = number of left rows, matched = count of rows
whose attached cell is present and non-null, and matched + unmatched =
total; on a 10-row left table where exactly the keys "8", "9", "10" have no
match, matched is 7 and unmatched is 3. When the name does collide, the
counts are read from the unstructured table's own column instead (see the
counterexample). -/
theorem c6_missing_marker_and_counts_amended (α : Type)
    (uColumns : List (List Char)) (st_alloc_col : List Char)
    (uCell : α → Cell) (left : List α) (leftKey : α → Cell)
    (right : List (Cell × Cell)) (cfg : NormConfig) (pol : DupPolicy)
    (hno : st_alloc_col ∉ uColumns) :
    totalRows (consolidate left leftKey right cfg pol) = left.length ∧
    matchedRows uColumns st_alloc_col uCell
      (consolidate left leftKey right cfg pol) =
      notnaCount ((consolidate left leftKey right cfg pol).map
        (fun pr => pr.2)) ∧
    matchedRows uColumns st_alloc_col uCell
      (consolidate left leftKey right cfg pol) +
      unmatchedRows uColumns st_alloc_col uCell
        (consolidate left leftKey right cfg pol) =
      totalRows (consolidate left leftKey right cfg pol) ∧
    (∀ pr ∈ consolidate left leftKey right cfg pol,
      pr.1.2 ∉ (reduceRight pol (rightKeyed cfg right)).map (fun r => r.1) →
      pr.2 = none) ∧
    ((none : Option Cell) ≠ some (Cell.str [])) ∧
    matchedRows ["Style".data] "Chassis Allocation".data (fun c => c)
      (consolidate [Cell.str "1".data, Cell.str "2".data,
        Cell.str "3".data, Cell.str "4".data, Cell.str "5".data,
        Cell.str "6".data, Cell.str "7".data, Cell.str "8".data,
        Cell.str "9".data, Cell.str "10".data] (fun c => c)
        [(Cell.str "1".data, Cell.num 1), (Cell.str "2".data, Cell.num 2),
          (Cell.str "3".data, Cell.num 3), (Cell.str "4".data, Cell.num 4),
          (Cell.str "5".data, Cell.num 5), (Cell.str "6".data, Cell.num 6),
          (Cell.str "7".data, Cell.num 7)]
        ⟨false, false, false, false⟩ DupPolicy.keepFirst) = 7 ∧
    unmatchedRows ["Style".data] "Chassis Allocation".data (fun c => c)
      (consolidate [Cell.str "1".data, Cell.str "2".data,
        Cell.str "3".data, Cell.str "4".data, Cell.str "5".data,
        Cell.str "6".data, Cell.str "7".data, Cell.str "8".data,
        Cell.str "9".data, Cell.str "10".data] (fun c => c)
        [(Cell.str "1".data, Cell.num 1), (Cell.str "2".data, Cell.num 2),
          (Cell.str "3".data, Cell.num 3), (Cell.str "4".data, Cell.num 4),
          (Cell.str "5".data, Cell.num 5), (Cell.str "6".data, Cell.num 6),
          (Cell.str "7".data, Cell.num 7)]
        ⟨false, false, false, false⟩ DupPolicy.keepFirst) = 3 := by
  have hnodup := reduceRight_keys_nodup pol (rightKeyed cfg right)
  have hmap := leftMerge_eq_map
    (left.map (fun a => (a, normalize_style_series cfg (leftKey a))))
    (reduceRight pol (rightKeyed cfg right)) hnodup
  have hread : allocColRead uColumns st_alloc_col uCell
      (consolidate left leftKey right cfg pol) =
      (consolidate left leftKey right cfg pol).map (fun pr => pr.2) := by
    unfold allocColRead
    rw [if_neg hno]
  refine ⟨?_, ?_, ?_, ?_, by decide, by decide, by decide⟩
  · show (leftMerge _ _).length = left.length
    rw [hmap, List.length_map, List.length_map]
  · unfold matchedRows
    rw [hread]
  · have hle : matchedRows uColumns st_alloc_col uCell
        (consolidate left leftKey right cfg pol) ≤
        totalRows (consolidate left leftKey right cfg pol) := by
      unfold matchedRows notnaCount
      rw [hread]
      calc ((consolidate left leftKey right cfg pol).map
              (fun pr => pr.2)).countP (fun c =>
              match c with
              | some v => !v.isNull
              | none => false) ≤
            ((consolidate left leftKey right cfg pol).map
              (fun pr => pr.2)).length := List.countP_le_length _
        _ = totalRows (consolidate left leftKey right cfg pol) :=
            List.length_map _ _
    unfold unmatchedRows
    omega
  · intro pr hpr habs
    unfold consolidate at hpr
    rw [hmap] at hpr
    rcases List.mem_map.mp hpr with ⟨l, _, rfl⟩
    show lookupRow (reduceRight pol (rightKeyed cfg right)) l.2 = none
    unfold lookupRow
    rw [List.find?_eq_none.mpr ?_]
    · rfl
    · intro r hr
      simp only [decide_eq_true_eq]
      intro he
      exact habs (by
        rw [← he]
        exact List.mem_map.mpr ⟨r, hr, rfl⟩)

/-- Witness for the amended C6: with no column-name collision, a concrete
left row with an absent key receives the missing marker. -/
theorem c6_missing_marker_and_counts_witness :
    ("Chassis Allocation".data ∉ (["Style".data] : List (List Char))) ∧
    (((Cell.str "8".data, "8".data), (none : Option Cell)) ∈
      consolidate [Cell.str "8".data] (fun c => c)
        [(Cell.str "1".data, Cell.num 1)] ⟨false, false, false, false⟩
        DupPolicy.keepFirst) ∧
    (((Cell.str "8".data, "8".data), (none : Option Cell)) :
      (Cell × Key) × Option Cell).2 = none :=
  ⟨by decide, by decide,
    (c6_missing_marker_and_counts_amended Cell ["Style".data]
      "Chassis Allocation".data (fun c => c) [Cell.str "8".data]
      (fun c => c) [(Cell.str "1".data, Cell.num 1)]
      ⟨false, false, false, false⟩ DupPolicy.keepFirst (by decide)).2.2.2.1
    ((Cell.str "8".data, "8".data), none) (by decide) (by decide)⟩
